import Mathlib

/-!
Verification of the gluezilla DBL layout solver
(`lib/MC/DBLSolve/DBLSolveFF.cpp`, `lib/MC/MCAssembler.cpp`,
`lib/CodeGen/DBL.cpp`, `lib/DBLCLIArgs/DBLCLIArgs.cpp`).

The C++ code is shallowly embedded: machine integers are `Nat`/`Int` with
explicit reduction modulo `2 ^ 64` wherever the C++ arithmetic can wrap,
`std::list` becomes `List` with iterators as positions, `std::set` becomes
`Finset`, `std::map` becomes a sorted association list, assertion failures
and other aborts become `Option.none`.
-/

namespace DBLSolve

/-! ## 64-bit machine arithmetic -/

/-- `INT64_MAX`. -/
def I64MAX : ℤ := 2 ^ 63 - 1

/-- `UINT64_MAX`. -/
def U64MAX : ℕ := 2 ^ 64 - 1

/-- Reduce an integer into `uint64_t` range (two's-complement wraparound). -/
def wrap64 (x : ℤ) : ℕ := (x % (2 ^ 64 : ℤ)).toNat

/-- `uint64_t` addition. -/
def uadd (a b : ℕ) : ℕ := (a + b) % 2 ^ 64

/-- `uint64_t` subtraction. -/
def usub (a b : ℕ) : ℕ := (a % 2 ^ 64 + (2 ^ 64 - b % 2 ^ 64)) % 2 ^ 64

/-- Reinterpret a `uint64_t` bit pattern as `int64_t`
(the conversion applied when a C++ unsigned expression is stored in or
compared against an `int64_t`). -/
def toInt64 (x : ℕ) : ℤ :=
  if x % 2 ^ 64 < 2 ^ 63 then (x % 2 ^ 64 : ℤ) else (x % 2 ^ 64 : ℤ) - 2 ^ 64

theorem wrap64_of_lt (x : ℕ) (h : x < 2 ^ 64) : wrap64 (x : ℤ) = x := by
  unfold wrap64
  rw [Int.emod_eq_of_lt (by positivity) (by exact_mod_cast h)]
  exact Int.toNat_natCast x

theorem toInt64_wrap64 (x : ℤ) (h1 : -(2 ^ 63) ≤ x) (h2 : x < 2 ^ 63) :
    toInt64 (wrap64 x) = x := by
  unfold toInt64 wrap64
  have hm : x % (2 ^ 64 : ℤ) = if 0 ≤ x then x else x + 2 ^ 64 := by
    split <;> omega
  split <;> omega

theorem usub_eq_wrap64 (a b : ℕ) : usub a b = wrap64 ((a : ℤ) - b) := by
  unfold usub wrap64
  have h2 : b % 2 ^ 64 < 2 ^ 64 := Nat.mod_lt _ (by norm_num)
  have ha : (a : ℤ) % 2 ^ 64 = ((a % 2 ^ 64 : ℕ) : ℤ) := by push_cast; rfl
  have hb : (b : ℤ) % 2 ^ 64 = ((b % 2 ^ 64 : ℕ) : ℤ) := by push_cast; rfl
  omega

/-! ## Victim matcher (`findVictim`, DBLSolveFF.cpp lines 80-116) -/

/-- `VictimInfo` record (one line of `victim_addresses.txt`, grouped per frame
by `readConfig`). -/
structure VictimInfo where
  VictimAddr : ℕ
  Bit : ℕ
  Sign : Bool
  Aggrs : List ℕ
  AggrInit : ℕ
deriving Repr, DecidableEq

/-- Inner loop of the `findVictim` scan: the victims of frame-group `i`,
paired with their `(outer, inner)` indices, inner index starting at `j`. -/
def scanInner (i : ℕ) : ℕ → List VictimInfo → List ((ℕ × ℕ) × VictimInfo)
  | _, [] => []
  | j, v :: rest => ((i, j), v) :: scanInner i (j + 1) rest

/-- Outer loop of the `findVictim` scan, outer index starting at `i`. -/
def scanOuter : ℕ → List (List VictimInfo) → List ((ℕ × ℕ) × VictimInfo)
  | _, [] => []
  | i, vi :: rest => scanInner i 0 vi ++ scanOuter (i + 1) rest

/-- All `(frame index, victim index, victim)` triples in the order the two
nested loops of `findVictim` visit them. -/
def victimScan (vis : List (List VictimInfo)) : List ((ℕ × ℕ) × VictimInfo) :=
  scanOuter 0 vis

/-- `int64_t E = FrameOffset - TargetOffset` where
`uint64_t FrameOffset = Victim.VictimAddr % Asm.PageSize`: the subtraction is
performed in `uint64_t` and the result converted into `int64_t`. -/
def victimE (pageSize targetOffset : ℕ) (v : VictimInfo) : ℤ :=
  toInt64 (usub (v.VictimAddr % pageSize) targetOffset)

/-- The acceptance test of `findVictim`'s inner loop, minus the comparison
with the running best: `E > 0 && Victim.Bit == Bit && Victim.Sign == Sign &&
!Used.count(Victim.VictimAddr / Asm.PageSize)`. -/
def validCand (pageSize bit : ℕ) (sign : Bool) (targetOffset : ℕ)
    (used : Finset ℕ) (c : (ℕ × ℕ) × VictimInfo) : Prop :=
  0 < victimE pageSize targetOffset c.2 ∧ c.2.Bit = bit ∧ c.2.Sign = sign ∧
    c.2.VictimAddr / pageSize ∉ used

instance (pageSize bit : ℕ) (sign : Bool) (targetOffset : ℕ) (used : Finset ℕ)
    (c : (ℕ × ℕ) × VictimInfo) :
    Decidable (validCand pageSize bit sign targetOffset used c) := by
  unfold validCand; infer_instance

/-- One iteration of `findVictim`'s nested loop, updating the running
`(Best, Ret)` state. -/
def findVictimStep (pageSize bit : ℕ) (sign : Bool) (targetOffset : ℕ)
    (used : Finset ℕ) (st : ℤ × (ℕ × ℕ)) (c : (ℕ × ℕ) × VictimInfo) :
    ℤ × (ℕ × ℕ) :=
  if validCand pageSize bit sign targetOffset used c ∧
      victimE pageSize targetOffset c.2 < st.1 then
    (victimE pageSize targetOffset c.2, c.1)
  else st

/-- `findVictim` (DBLSolveFF.cpp lines 88-116).  The entry assertion
`TargetOffset < Asm.PageSize` and the exit assertion
`Ret.first != UINT64_MAX` become the `none` result.  On success the chosen
victim's frame is inserted into the used-frame set, and the indices are
returned together with the updated set. -/
def findVictim (vis : List (List VictimInfo)) (used : Finset ℕ)
    (pageSize bit : ℕ) (sign : Bool) (targetOffset : ℕ) :
    Option ((ℕ × ℕ) × Finset ℕ) :=
  if targetOffset < pageSize then
    let st := (victimScan vis).foldl
      (findVictimStep pageSize bit sign targetOffset used) (I64MAX, (U64MAX, U64MAX))
    if st.2.1 = U64MAX then none
    else some (st.2,
      insert (((vis.getD st.2.1 []).getD st.2.2
        ⟨0, 0, false, [], 0⟩).VictimAddr / pageSize) used)
  else none

theorem victimE_eq (pageSize targetOffset : ℕ) (v : VictimInfo)
    (hP : pageSize < 2 ^ 63) (hto : targetOffset < pageSize) :
    victimE pageSize targetOffset v =
      ((v.VictimAddr % pageSize : ℕ) : ℤ) - targetOffset := by
  have hfo : v.VictimAddr % pageSize < pageSize := Nat.mod_lt _ (by omega)
  unfold victimE
  rw [usub_eq_wrap64, toInt64_wrap64] <;> omega

theorem mem_scanInner (i j : ℕ) (l : List VictimInfo)
    (c : (ℕ × ℕ) × VictimInfo) (hc : c ∈ scanInner i j l) :
    c.1.1 = i ∧ ∃ k, k < l.length ∧ c.1.2 = j + k ∧
      l.getD k ⟨0, 0, false, [], 0⟩ = c.2 := by
  induction l generalizing j with
  | nil => simp [scanInner] at hc
  | cons v rest ih =>
    simp only [scanInner, List.mem_cons] at hc
    rcases hc with hc | hc
    · subst hc
      exact ⟨rfl, 0, by simp⟩
    · obtain ⟨h1, k, hk, hjk, hget⟩ := ih (j + 1) hc
      exact ⟨h1, k + 1, by simpa using hk, by omega, by simpa using hget⟩

theorem mem_scanOuter (i : ℕ) (vis : List (List VictimInfo))
    (c : (ℕ × ℕ) × VictimInfo) (hc : c ∈ scanOuter i vis) :
    ∃ m, m < vis.length ∧ c.1.1 = i + m ∧
      c ∈ scanInner (i + m) 0 (vis.getD m []) := by
  induction vis generalizing i with
  | nil => simp [scanOuter] at hc
  | cons vi rest ih =>
    simp only [scanOuter, List.mem_append] at hc
    rcases hc with hc | hc
    · exact ⟨0, by simp, (mem_scanInner i 0 vi c hc).1, by simpa using hc⟩
    · obtain ⟨m, hm, h1, h2⟩ := ih (i + 1) hc
      exact ⟨m + 1, by simpa using hm, by omega,
        by simpa [show i + 1 + m = i + (m + 1) by omega] using h2⟩

/-- Looking up the scanned indices in the victim table recovers the scanned
victim, and the outer index is in range. -/
theorem victimScan_lookup (vis : List (List VictimInfo))
    (c : (ℕ × ℕ) × VictimInfo) (hc : c ∈ victimScan vis) :
    c.1.1 < vis.length ∧
      (vis.getD c.1.1 []).getD c.1.2 ⟨0, 0, false, [], 0⟩ = c.2 := by
  obtain ⟨m, hm, h1, h2⟩ := mem_scanOuter 0 vis c hc
  obtain ⟨-, k, hk, hjk, hget⟩ := mem_scanInner (0 + m) 0 (vis.getD m []) c h2
  refine ⟨by omega, ?_⟩
  have : c.1.1 = m := by omega
  have : c.1.2 = k := by omega
  simp_all

/-- The default candidate used with `List.getD` when indexing scan lists. -/
def defaultCand : (ℕ × ℕ) × VictimInfo := ((0, 0), ⟨0, 0, false, [], 0⟩)

/-- Characterization of `findVictim`'s scan: folding `findVictimStep` over a
candidate list either leaves the running state untouched (no acceptable
candidate improves on the incoming best) or returns the first candidate, in
scan order, attaining the least `E` below the incoming best. -/
theorem foldl_findVictimStep_char (P bit : ℕ) (sign : Bool) (tOff : ℕ)
    (used : Finset ℕ) (cs : List ((ℕ × ℕ) × VictimInfo)) (b : ℤ) (r : ℕ × ℕ) :
    (cs.foldl (findVictimStep P bit sign tOff used) (b, r) = (b, r) ∧
      ∀ c ∈ cs, validCand P bit sign tOff used c → ¬(victimE P tOff c.2 < b)) ∨
    (∃ k, k < cs.length ∧
      validCand P bit sign tOff used (cs.getD k defaultCand) ∧
      victimE P tOff (cs.getD k defaultCand).2 < b ∧
      (cs.foldl (findVictimStep P bit sign tOff used) (b, r)).1 =
        victimE P tOff (cs.getD k defaultCand).2 ∧
      (cs.foldl (findVictimStep P bit sign tOff used) (b, r)).2 =
        (cs.getD k defaultCand).1 ∧
      (∀ j, j < cs.length → validCand P bit sign tOff used (cs.getD j defaultCand) →
        (cs.foldl (findVictimStep P bit sign tOff used) (b, r)).1 ≤
          victimE P tOff (cs.getD j defaultCand).2) ∧
      (∀ j, j < k → validCand P bit sign tOff used (cs.getD j defaultCand) →
        (cs.foldl (findVictimStep P bit sign tOff used) (b, r)).1 <
          victimE P tOff (cs.getD j defaultCand).2)) := by
  induction cs generalizing b r with
  | nil => exact Or.inl ⟨rfl, by simp⟩
  | cons c cs ih =>
    by_cases hcond : validCand P bit sign tOff used c ∧ victimE P tOff c.2 < b
    · have hstep : findVictimStep P bit sign tOff used (b, r) c =
          (victimE P tOff c.2, c.1) := by
        simp only [findVictimStep, if_pos hcond]
      rw [List.foldl_cons, hstep]
      rcases ih (victimE P tOff c.2) c.1 with ⟨heq, hall⟩ |
        ⟨k, hk, hv, hlt, h1, h2, hmin, htie⟩
      · refine Or.inr ⟨0, by simp, by simpa using hcond.1, by simpa using hcond.2,
          ?_, ?_, ?_, ?_⟩
        · simp [heq]
        · simp [heq]
        · intro j hj hvj
          rw [heq]
          match j with
          | 0 => simp
          | j + 1 =>
            simp only [List.getD_cons_succ] at hvj
            simp only [List.getD_cons_succ]
            have hj' : j < cs.length := by
              simp only [List.length_cons] at hj
              omega
            have hmem : cs.getD j defaultCand ∈ cs := by
              rw [List.getD_eq_getElem _ _ hj']
              exact List.getElem_mem hj'
            have h := hall (cs.getD j defaultCand) hmem hvj
            omega
        · intro j hj hvj
          omega
      · refine Or.inr ⟨k + 1, by simp only [List.length_cons]; omega,
          by simpa only [List.getD_cons_succ] using hv,
          ?_, ?_, ?_, ?_, ?_⟩
        · simp only [List.getD_cons_succ]
          exact lt_trans hlt hcond.2
        · simpa only [List.getD_cons_succ] using h1
        · simpa only [List.getD_cons_succ] using h2
        · intro j hj hvj
          match j with
          | 0 =>
            simp only [List.getD_cons_zero] at hvj
            simp only [List.getD_cons_zero]
            rw [h1]
            exact le_of_lt hlt
          | j + 1 =>
            simp only [List.getD_cons_succ] at hvj
            simp only [List.getD_cons_succ]
            have hj' : j < cs.length := by
              simp only [List.length_cons] at hj
              omega
            exact hmin j hj' hvj
        · intro j hj hvj
          match j with
          | 0 =>
            simp only [List.getD_cons_zero] at hvj
            simp only [List.getD_cons_zero]
            rw [h1]
            exact hlt
          | j + 1 =>
            simp only [List.getD_cons_succ] at hvj
            simp only [List.getD_cons_succ]
            exact htie j (by omega) hvj
    · have hstep : findVictimStep P bit sign tOff used (b, r) c = (b, r) := by
        simp only [findVictimStep, if_neg hcond]
      rw [List.foldl_cons, hstep]
      rcases ih b r with ⟨heq, hall⟩ | ⟨k, hk, hv, hlt, h1, h2, hmin, htie⟩
      · refine Or.inl ⟨heq, ?_⟩
        intro x hx hvx
        rcases List.mem_cons.mp hx with hx | hx
        · subst hx
          intro hxb
          exact hcond ⟨hvx, hxb⟩
        · exact hall x hx hvx
      · refine Or.inr ⟨k + 1, by simp only [List.length_cons]; omega,
          by simpa only [List.getD_cons_succ] using hv,
          by simpa only [List.getD_cons_succ] using hlt,
          by simpa only [List.getD_cons_succ] using h1,
          by simpa only [List.getD_cons_succ] using h2, ?_, ?_⟩
        · intro j hj hvj
          match j with
          | 0 =>
            simp only [List.getD_cons_zero] at hvj
            have hb : ¬(victimE P tOff c.2 < b) := fun hxb => hcond ⟨hvj, hxb⟩
            simp only [List.getD_cons_zero]
            rw [h1]
            omega
          | j + 1 =>
            simp only [List.getD_cons_succ] at hvj
            simp only [List.getD_cons_succ]
            have hj' : j < cs.length := by
              simp only [List.length_cons] at hj
              omega
            exact hmin j hj' hvj
        · intro j hj hvj
          match j with
          | 0 =>
            simp only [List.getD_cons_zero] at hvj
            have hb : ¬(victimE P tOff c.2 < b) := fun hxb => hcond ⟨hvj, hxb⟩
            simp only [List.getD_cons_zero]
            rw [h1]
            omega
          | j + 1 =>
            simp only [List.getD_cons_succ] at hvj
            simp only [List.getD_cons_succ]
            exact htie j (by omega) hvj

theorem getD_mem_of_lt {α : Type} (l : List α) (d : α) (j : ℕ)
    (h : j < l.length) : l.getD j d ∈ l := by
  rw [List.getD_eq_getElem _ _ h]
  exact List.getElem_mem h

/-- Strict lexicographic order on the `(outer, inner)` index pairs carried
by scan candidates. -/
def scanOrdLt (a b : (ℕ × ℕ) × VictimInfo) : Prop :=
  a.1.1 < b.1.1 ∨ (a.1.1 = b.1.1 ∧ a.1.2 < b.1.2)

theorem pairwise_scanInner (i j : ℕ) (l : List VictimInfo) :
    List.Pairwise scanOrdLt (scanInner i j l) := by
  induction l generalizing j with
  | nil => exact List.Pairwise.nil
  | cons v rest ih =>
    refine List.Pairwise.cons ?_ (ih (j + 1))
    intro c hc
    obtain ⟨h1, kk, -, hjk, -⟩ := mem_scanInner i (j + 1) rest c hc
    refine Or.inr ⟨h1.symm, ?_⟩
    have hh : (((i, j), v) : (ℕ × ℕ) × VictimInfo).1.2 = j := rfl
    omega

theorem pairwise_scanOuter (i : ℕ) (vis : List (List VictimInfo)) :
    List.Pairwise scanOrdLt (scanOuter i vis) := by
  induction vis generalizing i with
  | nil => exact List.Pairwise.nil
  | cons vi rest ih =>
    rw [scanOuter, List.pairwise_append]
    refine ⟨pairwise_scanInner i 0 vi, ih (i + 1), ?_⟩
    intro a ha b hb
    obtain ⟨ha1, -⟩ := mem_scanInner i 0 vi a ha
    obtain ⟨m, -, hb1, -⟩ := mem_scanOuter (i + 1) rest b hb
    exact Or.inl (by omega)

/-- The scan visits candidates in strictly increasing lexicographic
`(outer, inner)` order, so position order in `victimScan` is exactly the
claim's scan order. -/
theorem victimScan_lex_sorted (vis : List (List VictimInfo)) :
    List.Pairwise scanOrdLt (victimScan vis) :=
  pairwise_scanOuter 0 vis

/-- `ij` is the best-fit choice for the scan: it appears at a scan position
`k` as an acceptable candidate whose `E` is minimal among all acceptable
candidates, every earlier scan position is strictly worse (so ties go to the
first position in `(outer, inner)` scan order), and `used'` adds exactly the
chosen victim's frame. -/
def bestChoiceAt (vis : List (List VictimInfo)) (used : Finset ℕ)
    (P bit : ℕ) (sign : Bool) (tOff : ℕ) (ij : ℕ × ℕ) (used' : Finset ℕ) :
    Prop :=
  ∃ k, k < (victimScan vis).length ∧
    ((victimScan vis).getD k defaultCand).1 = ij ∧
    validCand P bit sign tOff used ((victimScan vis).getD k defaultCand) ∧
    (∀ j, j < (victimScan vis).length →
      validCand P bit sign tOff used ((victimScan vis).getD j defaultCand) →
      victimE P tOff ((victimScan vis).getD k defaultCand).2 ≤
        victimE P tOff ((victimScan vis).getD j defaultCand).2) ∧
    (∀ j, j < k →
      validCand P bit sign tOff used ((victimScan vis).getD j defaultCand) →
      victimE P tOff ((victimScan vis).getD k defaultCand).2 <
        victimE P tOff ((victimScan vis).getD j defaultCand).2) ∧
    used' = insert (((victimScan vis).getD k defaultCand).2.VictimAddr / P) used

/-- Claim C1: `findVictim` fails (assertion) exactly when no pair
`(frame, victim)` is acceptable — bit and sign match, frame unused, and
`E = (victim addr mod page size) - target offset` strictly positive; on
success it returns the acceptable pair with the least `E`, ties broken by
`(outer, inner)` scan order, and inserts the chosen victim's frame into the
used-frame set.  The last conjunct identifies the code's `E` with the
claim's arithmetic `E`. -/
theorem findVictim_best_fit (vis : List (List VictimInfo)) (used : Finset ℕ)
    (P bit : ℕ) (sign : Bool) (tOff : ℕ)
    (hto : tOff < P) (hP : P < 2 ^ 63) (hlen : vis.length ≤ U64MAX) :
    (findVictim vis used P bit sign tOff = none ↔
      ∀ c ∈ victimScan vis, ¬ validCand P bit sign tOff used c) ∧
    (∀ ij used', findVictim vis used P bit sign tOff = some (ij, used') →
      bestChoiceAt vis used P bit sign tOff ij used') ∧
    (∀ v : VictimInfo,
      victimE P tOff v = ((v.VictimAddr % P : ℕ) : ℤ) - (tOff : ℤ)) ∧
    List.Pairwise scanOrdLt (victimScan vis) := by
  have hEbound : ∀ c : (ℕ × ℕ) × VictimInfo, victimE P tOff c.2 < I64MAX := by
    intro c
    rw [victimE_eq P tOff c.2 hP hto]
    have hfo : c.2.VictimAddr % P < P := Nat.mod_lt _ (by omega)
    unfold I64MAX
    omega
  rcases foldl_findVictimStep_char P bit sign tOff used (victimScan vis)
      I64MAX (U64MAX, U64MAX) with ⟨heq, hall⟩ |
      ⟨k, hk, hv, hlt, h1, h2, hmin, htie⟩
  · have hnone : findVictim vis used P bit sign tOff = none := by
      simp [findVictim, hto, heq]
    refine ⟨⟨fun _ c hc hvc => hall c hc hvc (hEbound c), fun _ => hnone⟩,
      ?_, fun v => victimE_eq P tOff v hP hto, victimScan_lex_sorted vis⟩
    intro ij used' h
    rw [hnone] at h
    cases h
  · have hmem : (victimScan vis).getD k defaultCand ∈ victimScan vis :=
      getD_mem_of_lt _ _ _ hk
    have hlook := victimScan_lookup vis _ hmem
    have hne : ((victimScan vis).getD k defaultCand).1.1 ≠ U64MAX := by
      have := hlook.1
      omega
    have hsome : findVictim vis used P bit sign tOff =
        some (((victimScan vis).getD k defaultCand).1,
          insert (((victimScan vis).getD k defaultCand).2.VictimAddr / P)
            used) := by
      simp only [findVictim, if_pos hto]
      rw [h2]
      rw [if_neg hne]
      rw [hlook.2]
    refine ⟨⟨fun hn => ?_, fun hno => ?_⟩, ?_,
      fun v => victimE_eq P tOff v hP hto, victimScan_lex_sorted vis⟩
    · rw [hsome] at hn
      cases hn
    · exact absurd (hno _ hmem hv) (fun h => h)
    · intro ij used' h
      rw [hsome] at h
      injection h with h'
      injection h' with ha hb
      refine ⟨k, hk, ha, hv, ?_, ?_, hb.symm⟩
      · intro j hj hvj
        have := hmin j hj hvj
        omega
      · intro j hj hvj
        have := htie j hj hvj
        omega

/-- Concrete two-frame victim table for the witness: the second frame's
victim has the smaller positive `E` and must win. -/
def visW : List (List VictimInfo) :=
  [[⟨0x4140, 3, true, [], 0⟩], [⟨0x5130, 3, true, [], 0⟩]]

theorem findVictim_best_fit_witness :
    findVictim visW ∅ 4096 3 true 0x120 = some ((1, 0), insert 5 ∅) ∧
    bestChoiceAt visW ∅ 4096 3 true 0x120 (1, 0) (insert 5 ∅) := by
  have heval : findVictim visW ∅ 4096 3 true 0x120 =
      some ((1, 0), insert 5 ∅) := by decide
  exact ⟨heval,
    (findVictim_best_fit visW ∅ 4096 3 true 0x120 (by decide) (by decide)
      (by decide)).2.1 (1, 0) (insert 5 ∅) heval⟩

/-! ## Free-list primitives (DBLSolveFF.cpp lines 119-182)

The free list `std::list<std::pair<uint64_t, uint64_t>>` becomes
`List (ℕ × ℕ)` and iterators become positions in the list. -/

/-- Rollback record returned by `removeFromFreelist`: the node range
`[Start, End)` that rollback erases, recorded as the position of `Start` in
the post-removal list plus the number of nodes up to `End`, and the
original interval value that rollback re-inserts before `Start`. -/
structure RollBackInfo where
  Start : ℕ
  Count : ℕ
  Value : ℕ × ℕ
deriving Repr, DecidableEq

/-- `splitFreelistAt` (lines 130-135) under the C++ abstract-machine
semantics of its signature: the parameter `FreeListT FreeList` is passed BY
VALUE, so `FreeList.insert(Itr, New)` inserts the head piece into a local
copy destroyed on return, and the only caller-visible effect is the
mutation through the iterator, which shrinks the caller's interval at `Itr`
to the second piece `(first+offset, size-offset)`. -/
def splitFreelistAt (freeList : List (ℕ × ℕ)) (itr offset : ℕ) :
    List (ℕ × ℕ) :=
  match freeList.get? itr with
  | none => freeList
  | some iv => freeList.set itr (uadd iv.1 offset, usub iv.2 offset)

/-- The split `splitFreelistAt` is documented to perform ("on return, Itr
points to the second element of the split"), and the one the shipped
binary happens to perform: with libstdc++, inserting through an iterator
that points into the caller's list links the head piece into the caller's
list even though the list parameter was copied.  The interval at `itr`
becomes the adjacent pieces `(first, offset)` and
`(first+offset, size-offset)`, the iterator staying on the second. -/
def splitFreelistRt (freeList : List (ℕ × ℕ)) (itr offset : ℕ) :
    List (ℕ × ℕ) :=
  match freeList.get? itr with
  | none => freeList
  | some iv =>
    (freeList.set itr (uadd iv.1 offset, usub iv.2 offset)).insertIdx itr
      (iv.1, offset)

/-- `removeFromFreelist` (lines 145-182): removes
`[Itr->first+Offset, Itr->first+Offset+Size)` from the interval at `Itr`.
The four branches (whole block, head, bottom, middle split) follow the
source, including the bottom branch's comparison
`Offset + Size == Itr->first + Itr->second` and its assertion
`Itr->second == Offset` after the shrink, which becomes `none`.
An out-of-range iterator (undefined behaviour in C++) is also `none`. -/
def removeFromFreelist (freeList : List (ℕ × ℕ)) (itr offset size : ℕ) :
    Option (RollBackInfo × List (ℕ × ℕ)) :=
  match freeList.get? itr with
  | none => none
  | some iv =>
    if offset = 0 ∧ iv.2 = size then
      some (⟨itr, 0, iv⟩, freeList.eraseIdx itr)
    else if offset = 0 then
      some (⟨itr, 1, iv⟩, freeList.set itr (uadd iv.1 size, usub iv.2 size))
    else if uadd offset size = uadd iv.1 iv.2 then
      if usub iv.2 size = offset then
        some (⟨itr, 1, iv⟩, freeList.set itr (iv.1, usub iv.2 size))
      else none
    else
      some (⟨itr, 2, iv⟩,
        (freeList.set itr
          (uadd iv.1 (uadd offset size), usub iv.2 (uadd offset size))).insertIdx
          itr (iv.1, offset))

/-- The rollback performed by `assignSpotAtDist` (lines 271-272):
`FreeList.insert(RBI.Start, RBI.Value)` re-inserts the saved interval
before `Start`, then `FreeList.erase(RBI.Start, RBI.End)` erases the nodes
the removal wrote. -/
def rollbackFreelist (l : List (ℕ × ℕ)) (rbi : RollBackInfo) :
    List (ℕ × ℕ) :=
  l.take rbi.Start ++ rbi.Value :: l.drop (rbi.Start + rbi.Count)

theorem take_getD_drop {α : Type} (l : List α) (d : α) (i : ℕ)
    (hi : i < l.length) : l.take i ++ l.getD i d :: l.drop (i + 1) = l := by
  induction l generalizing i with
  | nil => simp at hi
  | cons a t ih =>
    match i with
    | 0 => simp
    | i + 1 =>
      simp only [List.take_succ_cons, List.getD_cons_succ, List.drop_succ_cons,
        List.cons_append, List.cons.injEq, true_and]
      exact ih i (by simpa using hi)

theorem roll_set {α : Type} (l : List α) (i : ℕ) (x v : α)
    (hi : i < l.length) :
    (l.set i x).take i ++ v :: (l.set i x).drop (i + 1) =
      l.take i ++ v :: l.drop (i + 1) := by
  induction l generalizing i with
  | nil => simp at hi
  | cons a t ih =>
    match i with
    | 0 => simp
    | i + 1 =>
      simp only [List.set_cons_succ, List.take_succ_cons, List.drop_succ_cons,
        List.cons_append, List.cons.injEq, true_and]
      exact ih i (by simpa using hi)

theorem roll_erase {α : Type} (l : List α) (i : ℕ) (v : α)
    (hi : i < l.length) :
    (l.eraseIdx i).take i ++ v :: (l.eraseIdx i).drop i =
      l.take i ++ v :: l.drop (i + 1) := by
  induction l generalizing i with
  | nil => simp at hi
  | cons a t ih =>
    match i with
    | 0 => simp [List.eraseIdx]
    | i + 1 =>
      simp only [List.eraseIdx_cons_succ, List.take_succ_cons,
        List.drop_succ_cons, List.cons_append, List.cons.injEq, true_and]
      exact ih i (by simpa using hi)

theorem roll_insert_set {α : Type} (l : List α) (i : ℕ) (x y v : α)
    (hi : i < l.length) :
    ((l.set i x).insertIdx i y).take i ++
        v :: ((l.set i x).insertIdx i y).drop (i + 2) =
      l.take i ++ v :: l.drop (i + 1) := by
  induction l generalizing i with
  | nil => simp at hi
  | cons a t ih =>
    match i with
    | 0 => simp [List.insertIdx]
    | i + 1 =>
      simp only [List.set_cons_succ, List.insertIdx_succ_cons,
        List.take_succ_cons, List.drop_succ_cons, List.cons_append,
        List.cons.injEq, true_and]
      exact ih i (by simpa using hi)

/-- Claim C6: whenever `removeFromFreelist` returns (in each of its four
branches), re-inserting the saved value before `Start` and erasing
`[Start, End)` — i.e. `rollbackFreelist` — restores the free list exactly
to its pre-removal state. -/
theorem rollback_restores_aux (l : List (ℕ × ℕ)) (itr offset size : ℕ)
    (rbi : RollBackInfo) (l' : List (ℕ × ℕ))
    (h : removeFromFreelist l itr offset size = some (rbi, l')) :
    rollbackFreelist l' rbi = l := by
  unfold removeFromFreelist at h
  split at h
  · cases h
  · rename_i iv hiv
    have hlen : itr < l.length := (List.get?_eq_some.mp hiv).1
    have hgetD : l.getD itr (0, 0) = iv := by
      rw [List.getD_eq_getD_get?, hiv]
      rfl
    split at h
    · rename_i h1
      injection h with h
      injection h with hr hl
      subst hr hl
      unfold rollbackFreelist
      simp only [Nat.add_zero]
      rw [roll_erase l itr iv hlen, ← hgetD, take_getD_drop l (0, 0) itr hlen]
    · split at h
      · injection h with h
        injection h with hr hl
        subst hr hl
        unfold rollbackFreelist
        rw [roll_set l itr _ iv hlen, ← hgetD,
          take_getD_drop l (0, 0) itr hlen]
      · split at h
        · split at h
          · injection h with h
            injection h with hr hl
            subst hr hl
            unfold rollbackFreelist
            rw [roll_set l itr _ iv hlen, ← hgetD,
              take_getD_drop l (0, 0) itr hlen]
          · cases h
        · injection h with h
          injection h with hr hl
          subst hr hl
          unfold rollbackFreelist
          rw [roll_insert_set l itr _ _ iv hlen, ← hgetD,
            take_getD_drop l (0, 0) itr hlen]

theorem uadd_small (a b : ℕ) (h : a + b < 2 ^ 64) : uadd a b = a + b := by
  unfold uadd
  omega

theorem usub_small (a b : ℕ) (hb : b ≤ a) (ha : a < 2 ^ 64) :
    usub a b = a - b := by
  unfold usub
  omega

/-- Claim C6: removing an in-range chunk from a free-list interval never
aborts, and whatever branch `removeFromFreelist` takes (whole block, head,
bottom, middle split), applying the rollback it returns — insert the saved
`Value` before `Start`, erase `[Start, End)` — restores the free list
exactly. -/
theorem removeFromFreelist_rollback :
    (∀ (l : List (ℕ × ℕ)) (itr offset size : ℕ) (rbi : RollBackInfo)
      (l' : List (ℕ × ℕ)),
      removeFromFreelist l itr offset size = some (rbi, l') →
      rollbackFreelist l' rbi = l) ∧
    (∀ (l : List (ℕ × ℕ)) (itr offset size : ℕ) (iv : ℕ × ℕ),
      l.get? itr = some iv → offset + size ≤ iv.2 → iv.1 + iv.2 < 2 ^ 64 →
      (removeFromFreelist l itr offset size).isSome = true) := by
  refine ⟨rollback_restores_aux, ?_⟩
  intro l itr offset size iv hiv hrange hbound
  unfold removeFromFreelist
  split
  · rename_i heq
    rw [hiv] at heq
    cases heq
  · rename_i iv' heq
    rw [hiv] at heq
    injection heq with heq
    subst heq
    split
    · rfl
    · split
      · rfl
      · split
        · rename_i h1 h2 h3
          rw [uadd_small offset size (by omega),
            uadd_small iv.1 iv.2 hbound] at h3
          have hfz : iv.1 = 0 ∧ offset + size = iv.2 := by omega
          rw [if_pos (by rw [usub_small iv.2 size (by omega) (by omega)]; omega)]
          rfl
        · rfl

theorem removeFromFreelist_rollback_witness :
    removeFromFreelist [(0, 100)] 0 10 20 =
      some (⟨0, 2, (0, 100)⟩, [(0, 10), (30, 70)]) ∧
    rollbackFreelist [(0, 10), (30, 70)] ⟨0, 2, (0, 100)⟩ = [(0, 100)] ∧
    (removeFromFreelist [(0, 100)] 0 10 20).isSome = true := by
  have heval : removeFromFreelist [(0, 100)] 0 10 20 =
      some (⟨0, 2, (0, 100)⟩, [(0, 10), (30, 70)]) := by decide
  refine ⟨heval, removeFromFreelist_rollback.1 _ 0 10 20 _ _ heval,
    removeFromFreelist_rollback.2 [(0, 100)] 0 10 20 (0, 100) (by decide)
      (by decide) (by decide)⟩

/-- Claim C5 (code defect): `splitFreelistAt` takes its list parameter by
value, so under the defined C++ semantics the caller's list keeps only the
shrunk second piece `(first+offset, size-offset)`; the head piece
`(first, offset)` is lost and the covered free space shrinks, contradicting
the documented split (which `splitFreelistRt` performs). -/
theorem splitFreelistAt_drops_head_piece :
    splitFreelistAt [(0, 100)] 0 10 = [(10, 90)] ∧
    splitFreelistAt [(0, 100)] 0 10 ≠ [(0, 10), (10, 90)] ∧
    ((splitFreelistAt [(0, 100)] 0 10).map Prod.snd).sum = 90 ∧
    splitFreelistRt [(0, 100)] 0 10 = [(0, 10), (10, 90)] := by
  refine ⟨by decide, by decide, by decide, by decide⟩

/-! ## Placement engine (DBLSolveFF.cpp lines 188-283) -/

/-- The advance of `assignSpot`'s cursor: the first position at or after
`startIdx` whose interval is at least `blockSize` large
(`while(FreeListItr != FreeList.end() && FreeListItr->second < Block.BlockSize)
FreeListItr++`); `none` when the cursor reaches `end()` (the assertion
`FreeListItr != FreeList.end()`). -/
def advanceIdx (freeList : List (ℕ × ℕ)) (startIdx blockSize : ℕ) :
    Option ℕ :=
  ((freeList.drop startIdx).findIdx?
    (fun iv => decide (blockSize ≤ iv.2))).map (fun k => startIdx + k)

/-- `assignSpot` (lines 194-205): place the block at the head of the first
sufficiently large interval.  Returns the advanced cursor, the chosen
section offset, the rollback info of the removal and the new free list. -/
def assignSpot (startIdx : ℕ) (freeList : List (ℕ × ℕ)) (blockSize : ℕ) :
    Option (ℕ × ℕ × RollBackInfo × List (ℕ × ℕ)) :=
  match advanceIdx freeList startIdx blockSize with
  | none => none
  | some i =>
    (removeFromFreelist freeList i 0 blockSize).map
      (fun rl => (i, (freeList.getD i (0, 0)).1, rl.1, rl.2))

/-- Map lookup for `Page2Frame` (`std::map<uint64_t, uint64_t>` as an
association list). -/
def mapLookup (m : List (ℕ × ℕ)) (k : ℕ) : Option ℕ :=
  (m.find? (fun p => decide (p.1 = k))).map Prod.snd

/-- The skip condition of `assignSpotVictim`'s scan loop (lines 216-224):
the interval is skipped when the beginning does not fit
(`TO + (int64_t)(S->first % PageSize) > VictimOffsetInPage`, `int64_t`
arithmetic), the end does not fit
(`(Block.BlockSize - TO) + VictimOffsetInPage >
S->first % PageSize + S->second`, `uint64_t` arithmetic), or the page is
already bound to a different frame. -/
def victimSpotBad (pageSize tOff vop blockSize : ℕ) (p2f : List (ℕ × ℕ))
    (frame : ℕ) (iv : ℕ × ℕ) : Bool :=
  decide ((tOff : ℤ) + toInt64 (iv.1 % pageSize) > (vop : ℤ)) ||
  decide (uadd (usub blockSize tOff) vop > uadd (iv.1 % pageSize) iv.2) ||
  (match mapLookup p2f (iv.1 / pageSize) with
   | some fr => decide (fr ≠ frame)
   | none => false)

/-- `BlockOffset = ((VictimOffsetInPage - TO - S->first) % PageSize
+ PageSize) % PageSize`: `VictimOffsetInPage - TO` is `int64_t`, subtracting
the `uint64_t` `S->first` converts everything to wrapped `uint64_t`, and the
remaining operations are unsigned. -/
def victimBlockOffset (pageSize tOff first vop : ℕ) : ℕ :=
  uadd (wrap64 ((vop : ℤ) - tOff - first) % pageSize) pageSize % pageSize

/-- `Block.SectionOffset = S->first + BlockOffset`. -/
def victimSectionOffset (pageSize tOff first vop : ℕ) : ℕ :=
  uadd first (victimBlockOffset pageSize tOff first vop)

/-- `assignSpotVictim` (lines 211-247).  Scans for an acceptable interval;
when none is found, takes the last interval and splits it forward to the
next page boundary (the "dirty hack", with the split's runtime libstdc++
behaviour `splitFreelistRt`); places the block so its target offset lands on
the victim's page offset; aborts (`assert(!Page2Frame.count(PageNr))`) when
the chosen interval's page is already bound — even to the same frame; binds
the page (`PageNr` is truncated to `unsigned`); removes the block's chunk;
finally splits again if the trailing interval still starts on the bound
page.  Returns the section offset, new free list and new page map. -/
def assignSpotVictim (freeList p2f : List (ℕ × ℕ))
    (blockSize tOff pageSize victimAddr : ℕ) :
    Option (ℕ × List (ℕ × ℕ) × List (ℕ × ℕ)) :=
  let vop := victimAddr % pageSize
  let frame := victimAddr / pageSize
  let (fl1, s) :=
    match freeList.findIdx?
        (fun iv => !(victimSpotBad pageSize tOff vop blockSize p2f frame iv)) with
    | some i => (freeList, i)
    | none =>
      (splitFreelistRt freeList (freeList.length - 1)
        (pageSize - (freeList.getD (freeList.length - 1) (0, 0)).1 % pageSize),
       freeList.length)
  let first := (fl1.getD s (0, 0)).1
  let sectionOffset := victimSectionOffset pageSize tOff first vop
  let pageNr := first / pageSize % 2 ^ 32
  match mapLookup p2f pageNr with
  | some _ => none
  | none =>
    let p2f' := (pageNr, frame) :: p2f
    match removeFromFreelist fl1 s (victimBlockOffset pageSize tOff first vop)
        blockSize with
    | none => none
    | some (_, fl2) =>
      let lastI := fl2.length - 1
      let lastIv := fl2.getD lastI (0, 0)
      let fl3 := if lastIv.1 / pageSize = pageNr then
          splitFreelistRt fl2 lastI (pageSize - lastIv.1 % pageSize)
        else fl2
      some (sectionOffset, fl3, p2f')

theorem natmod_of_intmod (a b P : ℕ)
    (h : (a : ℤ) % (P : ℤ) = (b : ℤ) % (P : ℤ)) : a % P = b % P := by
  have ha : ((a % P : ℕ) : ℤ) = (a : ℤ) % P := by push_cast; rfl
  have hb : ((b % P : ℕ) : ℤ) = (b : ℤ) % P := by push_cast; rfl
  have hc : ((a % P : ℕ) : ℤ) = ((b % P : ℕ) : ℤ) := by rw [ha, hb, h]
  exact_mod_cast hc

theorem wrap64_int (z : ℤ) : ((wrap64 z : ℕ) : ℤ) = z % 2 ^ 64 := by
  unfold wrap64
  rw [Int.toNat_of_nonneg (Int.emod_nonneg _ (by norm_num))]

/-- The placement congruence of `assignSpotVictim`: the computed section
offset realigns the target offset with the victim's page offset, for any
page size dividing `2^64`. -/
theorem victimSectionOffset_mod (P tOff first vop : ℕ)
    (hdvd : P ∣ 2 ^ 64) :
    (victimSectionOffset P tOff first vop + tOff) % P = vop % P := by
  have hdvdZ : ((P : ℤ)) ∣ (2 : ℤ) ^ 64 := by exact_mod_cast hdvd
  have h64 : ∀ y : ℤ, y % 2 ^ 64 ≡ y [ZMOD (P : ℤ)] := fun y =>
    Int.emod_emod_of_dvd y hdvdZ
  have hblk : victimBlockOffset P tOff first vop =
      wrap64 ((vop : ℤ) - tOff - first) % P := by
    unfold victimBlockOffset uadd
    rw [Nat.mod_mod_of_dvd _ hdvd, Nat.add_mod_right,
      Nat.mod_mod_of_dvd _ (dvd_refl P)]
  unfold victimSectionOffset uadd
  rw [hblk]
  apply natmod_of_intmod
  push_cast
  have e1 : ((first : ℤ) + ((wrap64 ((vop : ℤ) - tOff - first) : ℕ) : ℤ) % P)
      % 2 ^ 64 + tOff ≡
      ((first : ℤ) + ((wrap64 ((vop : ℤ) - tOff - first) : ℕ) : ℤ) % P) + tOff
      [ZMOD (P : ℤ)] := (h64 _).add_right _
  have e2 : ((first : ℤ) + ((wrap64 ((vop : ℤ) - tOff - first) : ℕ) : ℤ) % P)
      + tOff ≡ (first : ℤ) + ((vop : ℤ) - tOff - first) + tOff
      [ZMOD (P : ℤ)] := by
    refine Int.ModEq.add_right _ (Int.ModEq.add_left _ ?_)
    rw [wrap64_int]
    exact (Int.emod_emod_of_dvd _ (dvd_refl _)).trans (h64 _)
  have e3 : (first : ℤ) + ((vop : ℤ) - tOff - first) + tOff = (vop : ℤ) := by
    ring
  exact (e1.trans e2).trans (by rw [e3])

/-- Claim C2: whenever `assignSpotVictim` returns, the placed block's
section offset realigns its target offset with the victim's page offset:
`(SectionOffset + TargetOffset) mod P = VictimAddr mod P`; and in the
concrete single-target scenario (target offset `0x120` within the block,
victim at `0x4130`, page size 4096, fresh free list and page map) the
bundle is placed at section offset `0x10`. -/
theorem assignSpotVictim_aligns :
    (∀ (freeList p2f : List (ℕ × ℕ)) (blockSize tOff pageSize victimAddr : ℕ)
      (off : ℕ) (fl' p2f' : List (ℕ × ℕ)),
      pageSize ∣ 2 ^ 64 → 0 < pageSize →
      assignSpotVictim freeList p2f blockSize tOff pageSize victimAddr =
        some (off, fl', p2f') →
      (off + tOff) % pageSize = victimAddr % pageSize) ∧
    assignSpotVictim [(0, U64MAX / 2)] [] 0x200 0x120 4096 0x4130 =
      some (0x10, [(0, 0x10), (0x210, 0xdf0), (0x1000, U64MAX / 2 - 0x1000)],
        [(0, 4)]) := by
  constructor
  · intro freeList p2f blockSize tOff pageSize victimAddr off fl' p2f'
      hdvd h0 h
    simp only [assignSpotVictim] at h
    split at h
    · cases h
    · rename_i heq
      split at h
      · cases h
      · rename_i heq2
        rw [Option.some.injEq, Prod.mk.injEq, Prod.mk.injEq] at h
        obtain ⟨ha, -, -⟩ := h
        rw [← ha, victimSectionOffset_mod _ _ _ _ hdvd]
        exact Nat.mod_mod_of_dvd victimAddr (dvd_refl pageSize)
  · decide

theorem assignSpotVictim_aligns_witness :
    (0x10 + 0x120) % 4096 = 0x4130 % 4096 :=
  assignSpotVictim_aligns.1 [(0, U64MAX / 2)] [] 0x200 0x120 4096 0x4130 0x10
    [(0, 0x10), (0x210, 0xdf0), (0x1000, U64MAX / 2 - 0x1000)] [(0, 4)]
    (by decide) (by decide) assignSpotVictim_aligns.2

/-- The inner scan of `assignSpotAtDist` (lines 264-266): `T = RBI.Start;
while(T != FreeList.end() && F > T->first) T++; T--;`.  When the final
`T--` would step before `begin()` (kin to the undefined behaviour the
source's own comment questions), the model aborts. -/
def scanT (fl1 : List (ℕ × ℕ)) (startT F : ℕ) : Option ℕ :=
  let stop :=
    match (fl1.drop startT).findIdx? (fun iv => decide (¬ F > iv.1)) with
    | some k => startT + k
    | none => fl1.length
  if stop = 0 then none else some (stop - 1)

/-- The outer loop of `assignSpotAtDist` (lines 256-275): place the normal
destination with `assignSpot`, look for room for the flip destination at
distance `Dist`; on failure, roll the free list back and retry one
position further (`Start = ++++Next` with `Next = prev(Start)`, which under
libstdc++'s circular list is the position after the previous start).
Returns the normal destination's offset, the index of the interval holding
the flip slot, and the free list with the normal destination removed. -/
def atDistLoop (normalSize flipSize dist : ℕ) :
    ℕ → List (ℕ × ℕ) → ℕ → Option (ℕ × ℕ × List (ℕ × ℕ))
  | 0, _, _ => none
  | fuel + 1, fl, start =>
    match assignSpot start fl normalSize with
    | none => none
    | some (_, normalOff, rbi, fl1) =>
      match scanT fl1 rbi.Start (uadd normalOff dist) with
      | none => none
      | some t =>
        let tIv := fl1.getD t (0, 0)
        if uadd (uadd normalOff dist) flipSize ≤ uadd tIv.1 tIv.2 then
          some (normalOff, t, fl1)
        else
          atDistLoop normalSize flipSize dist fuel (rollbackFreelist fl1 rbi)
            (start + 1)

/-- `assignSpotAtDist` (lines 254-283): after the search loop,
`FlipDest.SectionOffset = NormalDest.SectionOffset + Dist` and the flip
slot `[FlipDest.SectionOffset, +FlipDest.BlockSize)` is removed from the
interval found. -/
def assignSpotAtDist (fl : List (ℕ × ℕ)) (normalSize flipSize dist : ℕ) :
    Option (ℕ × ℕ × List (ℕ × ℕ)) :=
  match atDistLoop normalSize flipSize dist (fl.length + 2) fl 0 with
  | none => none
  | some (normalOff, endIdx, fl1) =>
    match removeFromFreelist fl1 endIdx
        (usub (uadd normalOff dist) (fl1.getD endIdx (0, 0)).1) flipSize with
    | none => none
    | some (_, fl2) => some (normalOff, uadd normalOff dist, fl2)

/-! ## The solver driver (`solveFF`, DBLSolveFF.cpp lines 285-389) -/

/-- Fuel-driven ceiling base-2 logarithm, the executable counterpart of
`Nat.clog 2`. -/
def clog2F : ℕ → ℕ → ℕ
  | 0, _ => 0
  | fuel + 1, n => if n ≤ 1 then 0 else clog2F fuel ((n + 1) / 2) + 1

/-- `unsigned B = std::ceil(std::log2(AvgSize))` (lines 318-319).  The
source computes this on `double`; for every `AvgSize` whose faithful
double-precision rounding could differ from the exact ceiling (just above
a power of two with exponent at least 48), both values trip the `B < 32`
assertion, so the mathematical ceiling also models the machine result
whenever `solveFF` proceeds.  `AvgSize = 0` (`log2(0) = -inf`, whose
conversion to `unsigned` is undefined) is not used. -/
def ceilLog2 (n : ℕ) : ℕ := clog2F n n

theorem clog2F_eq (fuel n : ℕ) (h : n ≤ fuel) : clog2F fuel n = Nat.clog 2 n := by
  induction fuel generalizing n with
  | zero =>
    have hn : n = 0 := by omega
    subst hn
    simp [clog2F]
  | succ fuel ih =>
    by_cases hn : n ≤ 1
    · rw [show clog2F (fuel + 1) n = 0 by simp [clog2F, hn]]
      exact (Nat.clog_of_right_le_one hn 2).symm
    · rw [show clog2F (fuel + 1) n = clog2F fuel ((n + 1) / 2) + 1 by
        simp [clog2F, hn]]
      rw [Nat.clog_of_two_le (by norm_num) (by omega)]
      rw [show (n + 2 - 1) / 2 = (n + 1) / 2 by omega]
      rw [ih ((n + 1) / 2) (by omega)]

theorem ceilLog2_eq_clog (n : ℕ) : ceilLog2 n = Nat.clog 2 n :=
  clog2F_eq n n le_rfl

/-- The `TargetSpec` kind (`std::variant<TargetNone, TargetFixed,
TargetRange, TargetDestination>`).  For a `TargetRange`, `NormalDest` and
`FlipDest` hold bundle indices by the time `solveFF` runs (translated in
`MCAssembler::layout`). -/
inductive TargetKindT where
  | TargetNone : TargetKindT
  | TargetFixed (Bit : ℕ) (Sign : Bool) : TargetKindT
  | TargetRange (DestAddrRange NormalDest FlipDest : ℕ) : TargetKindT
  | TargetDestination : TargetKindT
deriving Repr, DecidableEq

/-- The solver's view of one bundle: its size under the layout
(`getBundleSize`), the matched target offset within the fragment of
interest, and the `TargetSpec` kind.  (The `Bundle` struct itself lives in
the missing header MCAssembler.h; this carries exactly the fields `solveFF`
reads.) -/
structure BundleB where
  Size : ℕ
  TargetOffsetInFragment : ℕ
  Kind : TargetKindT
deriving Repr, DecidableEq

/-- Modelled from the spec: `TargetSpec::isTarget` is declared in the
missing header MCAssembler.h; per spec section 3 and the dispatch in
`writeFragment` (MCAssembler.cpp lines 541-577), targets are the `Fixed`
and `Range` kinds, while `Ignored`/`Destination` are not targets. -/
def isTargetKind : TargetKindT → Bool
  | .TargetFixed _ _ => true
  | .TargetRange _ _ _ => true
  | _ => false

/-- `Block` (lines 47-58): solver state for one bundle.  `TVI` is
`std::optional<TargetVictimInfo>` holding `TargetOffset`. -/
structure Block where
  BundleIdx : ℕ
  BlockSize : ℕ
  SectionOffset : ℕ
  TVI : Option ℕ
deriving Repr, DecidableEq

/-- `createBlock` (lines 60-78). -/
def createBlock (bundles : List BundleB) (idx : ℕ) : Block :=
  let b := bundles.getD idx ⟨0, 0, .TargetNone⟩
  { BundleIdx := idx
    BlockSize := b.Size
    SectionOffset := 0
    TVI := if isTargetKind b.Kind then some b.TargetOffsetInFragment
      else none }

/-- Accumulator of `solveFF`'s classification loop (lines 290-314). -/
structure SplitAcc where
  Targets : List Block
  TargetDests : List (Block × Block)
  AvgSize : ℕ
  MaxNormalDestSize : ℕ
deriving Repr, DecidableEq

/-- One iteration of the classification loop: destinations only feed the
running maximum bundle size (`AvgSize` is "max size bcs of TODO(1)"); all
other bundles become target blocks, and ranges additionally enqueue their
destination pair. -/
def classifyStep (bundles : List BundleB) (acc : SplitAcc) (i : ℕ) :
    SplitAcc :=
  let b := bundles.getD i ⟨0, 0, .TargetNone⟩
  match b.Kind with
  | .TargetDestination =>
    { acc with AvgSize := max acc.AvgSize b.Size }
  | .TargetRange _ nd fd =>
    { Targets := acc.Targets ++ [createBlock bundles i]
      TargetDests := acc.TargetDests ++
        [(createBlock bundles nd, createBlock bundles fd)]
      AvgSize := max acc.AvgSize b.Size
      MaxNormalDestSize := max acc.MaxNormalDestSize
        (bundles.getD nd ⟨0, 0, .TargetNone⟩).Size }
  | _ =>
    { acc with
      Targets := acc.Targets ++ [createBlock bundles i]
      AvgSize := max acc.AvgSize b.Size }

/-- The classification loop over all bundle indices. -/
def classifyBundles (bundles : List BundleB) : SplitAcc :=
  (List.range bundles.length).foldl (classifyStep bundles) ⟨[], [], 0, 0⟩

/-- Lines 318-321: `B = ceil(log2(AvgSize))`, `assert(B < 32)`,
`Dist = 2^B`. -/
def computeDistB (avgSize : ℕ) : Option ℕ :=
  if avgSize = 0 then none
  else if ceilLog2 avgSize < 32 then some (ceilLog2 avgSize) else none

/-- `Result` (declared in the missing header; fields as used by `solveFF`
and the emitter). -/
structure Result where
  BundleIdx : ℕ
  VictimFrame : Option ℕ
  VictimFrameIdx : Option ℕ
  VictimPageOffset : Option ℕ
deriving Repr, DecidableEq

/-- Ordered insert mirroring `std::map` key order. -/
def insertSorted : List (ℕ × Result) → ℕ → Result → List (ℕ × Result)
  | [], k, v => [(k, v)]
  | p :: rest, k, v =>
    if k < p.1 then (k, v) :: p :: rest else p :: insertSorted rest k v

/-- `assert(Results.count(off) == 0); Results[off] = res` — a duplicate
section offset aborts. -/
def insertResult (rs : List (ℕ × Result)) (k : ℕ) (v : Result) :
    Option (List (ℕ × Result)) :=
  if rs.any (fun p => decide (p.1 = k)) then none
  else some (insertSorted rs k v)

/-- The file-scope statics of DBLSolveFF.cpp: `Used` (line 85) and
`Page2Frame` (line 186).  They are constructed empty at program start and
never cleared. -/
structure SolverGlobals where
  Used : Finset ℕ
  Page2Frame : List (ℕ × ℕ)
deriving DecidableEq

/-- The state of the statics when the process starts. -/
def initialGlobals : SolverGlobals := ⟨∅, []⟩

/-- Step 1 of `solveFF` (lines 330-348): place every destination pair at
distance `dist` and record both results. -/
def placeDests (dist : ℕ) :
    List (Block × Block) → List (ℕ × ℕ) → List (ℕ × Result) →
    Option (List (ℕ × ℕ) × List (ℕ × Result))
  | [], fl, rs => some (fl, rs)
  | (nd, fd) :: rest, fl, rs =>
    match assignSpotAtDist fl nd.BlockSize fd.BlockSize dist with
    | none => none
    | some (nOff, fOff, fl') =>
      match insertResult rs nOff ⟨nd.BundleIdx, none, none, none⟩ with
      | none => none
      | some rs1 =>
        match insertResult rs1 fOff ⟨fd.BundleIdx, none, none, none⟩ with
        | none => none
        | some rs2 => placeDests dist rest fl' rs2

/-- Step 2 of `solveFF` (lines 350-388): place every fixed/range/plain
block.  Victim-carrying blocks go through `findVictim` (threading the
`Used` static) and `assignSpotVictim` (threading `Page2Frame`); plain
blocks go through `assignSpot` from the list head.  A range block shifts
its target offset by `RangeByteOffset` and uses the range bit/sign; the
`assert(std::get_if<TargetRange>(...))` for a victim-carrying non-fixed
non-range block aborts. -/
def placeTargets (victimInfos : List (List VictimInfo))
    (pageSize rangeByteOffset rangeBit : ℕ) (rangeSign : Bool)
    (bundles : List BundleB) :
    List Block → SolverGlobals → List (ℕ × ℕ) → List (ℕ × Result) →
    Option (SolverGlobals × List (ℕ × ℕ) × List (ℕ × Result))
  | [], glob, fl, rs => some (glob, fl, rs)
  | blk :: rest, glob, fl, rs =>
    match blk.TVI with
    | some tvi0 =>
      let step := fun (bit : ℕ) (sign : Bool) (tvi : ℕ) =>
        match findVictim victimInfos glob.Used pageSize bit sign tvi with
        | none => none
        | some ((rf, rfi), used') =>
          let vi := (victimInfos.getD rf []).getD rfi ⟨0, 0, false, [], 0⟩
          match assignSpotVictim fl glob.Page2Frame blk.BlockSize tvi
              pageSize vi.VictimAddr with
          | none => none
          | some (off, fl', p2f') =>
            match insertResult rs off
                ⟨blk.BundleIdx, some rf, some rfi, some (uadd tvi off)⟩ with
            | none => none
            | some rs' =>
              placeTargets victimInfos pageSize rangeByteOffset rangeBit
                rangeSign bundles rest ⟨used', p2f'⟩ fl' rs'
      match (bundles.getD blk.BundleIdx ⟨0, 0, .TargetNone⟩).Kind with
      | .TargetFixed b s => step b s tvi0
      | .TargetRange _ _ _ =>
        step rangeBit rangeSign (uadd tvi0 rangeByteOffset)
      | _ => none
    | none =>
      match assignSpot 0 fl blk.BlockSize with
      | none => none
      | some (_, off, _, fl') =>
        match insertResult rs off ⟨blk.BundleIdx, none, none, none⟩ with
        | none => none
        | some rs' =>
          placeTargets victimInfos pageSize rangeByteOffset rangeBit
            rangeSign bundles rest glob fl' rs'

/-- `MCAssembler::solveFF` (lines 287-389), with the statics threaded
explicitly: classify the bundles, derive the fixed distance from the
maximum bundle size, build the fresh free list `[(0, UINT64_MAX / 2)]`,
place destination pairs, then the remaining blocks, producing the
section-offset-keyed result map. -/
def solveFF (glob : SolverGlobals) (victimInfos : List (List VictimInfo))
    (pageSize : ℕ) (bundles : List BundleB) :
    Option (SolverGlobals × List (ℕ × Result)) :=
  match computeDistB (classifyBundles bundles).AvgSize with
  | none => none
  | some B =>
    match placeDests (2 ^ B) (classifyBundles bundles).TargetDests
        [(0, U64MAX / 2)] [] with
    | none => none
    | some (fl1, rs1) =>
      match placeTargets victimInfos pageSize (B / 8) (B % 8) true
          bundles (classifyBundles bundles).Targets glob fl1 rs1 with
      | none => none
      | some (glob', _, rs2) => some (glob', rs2)

/-- One `solveFF` invocation's per-call inputs (one section-layout pass). -/
structure SolveInput where
  VictimInfos : List (List VictimInfo)
  PageSize : ℕ
  Bundles : List BundleB

/-- A process trace: the statics start as `initialGlobals` at program
start, and each `solveFF` invocation reads and writes them; nothing ever
resets them between invocations. -/
def runInvocations : SolverGlobals → List SolveInput → Option SolverGlobals
  | g, [] => some g
  | g, inv :: rest =>
    match solveFF g inv.VictimInfos inv.PageSize inv.Bundles with
    | none => none
    | some (g', _) => runInvocations g' rest

/-- The spec-side "maximum bundle size". -/
def maxBundleSize (bundles : List BundleB) : ℕ :=
  (bundles.map BundleB.Size).foldl max 0

theorem usub_uadd (a b : ℕ) : usub (uadd a b) a = b % 2 ^ 64 := by
  unfold usub uadd
  omega

theorem classify_avg_fold (bundles : List BundleB) :
    ∀ (l : List ℕ) (acc : SplitAcc),
      ((l.foldl (classifyStep bundles) acc)).AvgSize =
        l.foldl (fun a i =>
          max a (bundles.getD i ⟨0, 0, .TargetNone⟩).Size) acc.AvgSize := by
  intro l
  induction l with
  | nil => intro acc; rfl
  | cons i t ih =>
    intro acc
    rw [List.foldl_cons, List.foldl_cons, ih]
    congr 1
    cases hb : (bundles.getD i ⟨0, 0, .TargetNone⟩).Kind <;>
      (simp only [classifyStep]; rw [hb])

theorem foldl_range_getD (f : ℕ → BundleB → ℕ) :
    ∀ (l : List BundleB) (x : ℕ),
      (List.range l.length).foldl
        (fun a i => f a (l.getD i ⟨0, 0, .TargetNone⟩)) x = l.foldl f x := by
  intro l
  induction l using List.reverseRecOn with
  | nil => intro x; rfl
  | append_singleton l b ih =>
    intro x
    rw [List.length_append, List.length_singleton, List.range_succ,
      List.foldl_append, List.foldl_append]
    have hext : (List.range l.length).foldl
        (fun a i => f a ((l ++ [b]).getD i ⟨0, 0, .TargetNone⟩)) x =
        (List.range l.length).foldl
          (fun a i => f a (l.getD i ⟨0, 0, .TargetNone⟩)) x := by
      apply List.foldl_ext
      intro a i hi
      rw [List.getD_append _ _ _ _ (List.mem_range.mp hi)]
    rw [hext, ih]
    have hlast : (l ++ [b]).getD l.length ⟨0, 0, .TargetNone⟩ = b := by
      rw [List.getD_append_right _ _ _ _ le_rfl]
      simp
    simp only [List.foldl_cons, List.foldl_nil, hlast]

theorem classifyBundles_avg (bundles : List BundleB) :
    (classifyBundles bundles).AvgSize = maxBundleSize bundles := by
  unfold classifyBundles maxBundleSize
  rw [classify_avg_fold]
  rw [foldl_range_getD (fun a b => max a b.Size) bundles 0]
  rw [List.foldl_map]

/-- Claim C3: whenever `assignSpotAtDist` returns, the flip destination's
section offset exceeds the normal destination's by exactly `Dist` (also
under the `uint64_t` subtraction the spec states); and the `Dist` a
successful `solveFF` derives is `2 ^ B` for
`B = ceil(log2(maximum bundle size))` with `B < 32`, a ceiling of 32 or
more aborting the compile. -/
theorem assignSpotAtDist_distance :
    (∀ (fl : List (ℕ × ℕ)) (normalSize flipSize dist nOff fOff : ℕ)
      (fl' : List (ℕ × ℕ)),
      assignSpotAtDist fl normalSize flipSize dist = some (nOff, fOff, fl') →
      fOff = uadd nOff dist ∧ (dist < 2 ^ 64 → usub fOff nOff = dist)) ∧
    (∀ bundles B, computeDistB (classifyBundles bundles).AvgSize = some B →
      (2 : ℕ) ^ B = 2 ^ Nat.clog 2 (maxBundleSize bundles) ∧ B < 32) ∧
    (∀ bundles, 32 ≤ Nat.clog 2 (maxBundleSize bundles) →
      computeDistB (classifyBundles bundles).AvgSize = none) ∧
    (∀ (glob : SolverGlobals) (victimInfos : List (List VictimInfo))
      (pageSize : ℕ) (bundles : List BundleB),
      computeDistB (classifyBundles bundles).AvgSize = none →
      solveFF glob victimInfos pageSize bundles = none) := by
  refine ⟨?_, ?_, ?_, ?_⟩
  · intro fl normalSize flipSize dist nOff fOff fl' h
    unfold assignSpotAtDist at h
    split at h
    · cases h
    · split at h
      · cases h
      · rw [Option.some.injEq, Prod.mk.injEq, Prod.mk.injEq] at h
        obtain ⟨hn, hf, -⟩ := h
        subst hn
        refine ⟨hf.symm, fun hd => ?_⟩
        rw [← hf, usub_uadd, Nat.mod_eq_of_lt hd]
  · intro bundles B h
    rw [classifyBundles_avg] at h
    unfold computeDistB at h
    split at h
    · cases h
    · rw [ceilLog2_eq_clog] at h
      split at h
      · injection h with h
        subst h
        exact ⟨rfl, by assumption⟩
      · cases h
  · intro bundles hge
    rw [classifyBundles_avg]
    unfold computeDistB
    split
    · rfl
    · rw [ceilLog2_eq_clog, if_neg (by omega)]
  · intro glob victimInfos pageSize bundles h
    unfold solveFF
    rw [h]

theorem assignSpotAtDist_distance_witness :
    assignSpotAtDist [(0, U64MAX / 2)] 16 16 32 =
      some (0, 32, [(16, 16), (48, U64MAX / 2 - 48)]) ∧
    (32 : ℕ) = uadd 0 32 ∧ usub 32 0 = 32 := by
  have heval : assignSpotAtDist [(0, U64MAX / 2)] 16 16 32 =
      some (0, 32, [(16, 16), (48, U64MAX / 2 - 48)]) := by decide
  have h := assignSpotAtDist_distance.1 [(0, U64MAX / 2)] 16 16 32 0 32
    [(16, 16), (48, U64MAX / 2 - 48)] heval
  exact ⟨heval, h.1, h.2 (by decide)⟩

/-- The witness inputs of claim C4: one fixed-target bundle and one
matching victim, page size 4096. -/
def invW : SolveInput :=
  ⟨[[⟨0x4130, 3, true, [], 0⟩]], 4096, [⟨16, 0, .TargetFixed 3 true⟩]⟩

/-- Claim C4, counterexample: after one `solveFF` invocation in a process
the statics `Used` and `Page2Frame` are no longer empty, so a second
invocation (a further section or assembler instance in the same process)
does not start from the fresh state the claim asserts. -/
theorem solveFF_statics_persist_cx :
    (runInvocations initialGlobals [invW]).map SolverGlobals.Used =
      some (insert 4 ∅) ∧
    (runInvocations initialGlobals [invW]).map SolverGlobals.Used ≠
      some (∅ : Finset ℕ) ∧
    (runInvocations initialGlobals [invW]).map SolverGlobals.Page2Frame ≠
      some ([] : List (ℕ × ℕ)) := by
  refine ⟨by decide, by decide, by decide⟩

/-- Claim C4 as amended: the free list is built afresh inside each
`solveFF` call, and the statics are empty at the first invocation of the
process, but they are never reset afterwards — the state entering an
appended invocation is exactly the state the previous invocations left,
which is already nonempty after the single-target run `invW`. -/
theorem solveFF_statics_persist :
    (∀ (g : SolverGlobals) (invs : List SolveInput) (inv : SolveInput),
      runInvocations g (invs ++ [inv]) =
        (runInvocations g invs).bind (fun g2 =>
          (solveFF g2 inv.VictimInfos inv.PageSize inv.Bundles).map
            Prod.fst)) ∧
    initialGlobals.Used = ∅ ∧ initialGlobals.Page2Frame = [] ∧
    (runInvocations initialGlobals [invW]).map SolverGlobals.Used =
      some (insert 4 ∅) ∧
    (runInvocations initialGlobals [invW]).map SolverGlobals.Page2Frame =
      some [(0, 4)] := by
  refine ⟨?_, rfl, rfl, by decide, by decide⟩
  intro g invs inv
  induction invs generalizing g with
  | nil =>
    rw [List.nil_append]
    have hb : ((some g).bind fun g2 =>
        (solveFF g2 inv.VictimInfos inv.PageSize inv.Bundles).map Prod.fst) =
        (solveFF g inv.VictimInfos inv.PageSize inv.Bundles).map Prod.fst :=
      rfl
    unfold runInvocations
    rw [hb]
    cases h : solveFF g inv.VictimInfos inv.PageSize inv.Bundles with
    | none => rfl
    | some p =>
      obtain ⟨g2, rs⟩ := p
      rfl
  | cons i t ih =>
    rw [List.cons_append]
    unfold runInvocations
    cases h : solveFF g i.VictimInfos i.PageSize i.Bundles with
    | none => rfl
    | some p =>
      obtain ⟨g2, rs⟩ := p
      exact ih g2

theorem solveFF_statics_persist_witness :
    runInvocations initialGlobals ([] ++ [invW]) =
      (runInvocations initialGlobals []).bind (fun g2 =>
        (solveFF g2 invW.VictimInfos invW.PageSize invW.Bundles).map
          Prod.fst) :=
  solveFF_statics_persist.1 initialGlobals [] invW

/-! ## Bridge jumps and labels (MCAssembler.cpp lines 1187-1211) -/

/-- Modelled from the spec: `MCDBLFragment::addJmp` is declared in the
missing header MCAssembler.h; per the spec (and the source's own message
"Adding jmp instruction (5 bytes) in every bundle") it appends a 5-byte
direct jump to the given label at the fragment's tail. -/
def jmpSize : ℕ := 5

/-- What the bridge loop leaves on one bundle: the label created at
offset 0 of its first fragment (`Label->setOffset(0)`), and the optional
jump appended to its tail, `(index of the bundle whose head label is
targeted, jump byte size)`. -/
structure BundleAnnot where
  LabelAtHeadOffset : ℕ
  Jump : Option (ℕ × ℕ)
deriving Repr, DecidableEq

/-- The reverse loop of lines 1189-1211: iterate bundle indices from the
back; a pending `PrevLabel` (the label of the bundle processed just
before, i.e. the successor in section order) becomes this bundle's tail
jump; then this bundle's head label becomes the new `PrevLabel`. -/
def bridgeLoop : List ℕ → Option ℕ → List (ℕ × BundleAnnot)
  | [], _ => []
  | i :: rest, prevLabel =>
    (i, ⟨0, prevLabel.map (fun l => (l, jmpSize))⟩) ::
      bridgeLoop rest (some i)

/-- Bridge insertion over `n` bundles: the loop starts at `Bundles.rbegin()`
with `PrevLabel = nullptr`. -/
def bridgeJumps (n : ℕ) : List (ℕ × BundleAnnot) :=
  bridgeLoop (List.range n).reverse none

theorem bridgeLoop_desc (n : ℕ) (prev : Option ℕ) :
    bridgeLoop (List.range n).reverse prev =
      (List.range n).reverse.map (fun i =>
        (i, ⟨0, (if i + 1 < n then some (i + 1) else prev).map
          (fun l => (l, jmpSize))⟩)) := by
  induction n generalizing prev with
  | zero => rfl
  | succ n ih =>
    rw [List.range_succ, List.reverse_append]
    simp only [List.reverse_singleton, List.singleton_append, List.map_cons]
    rw [show bridgeLoop (n :: (List.range n).reverse) prev =
      (n, ⟨0, prev.map (fun l => (l, jmpSize))⟩) ::
        bridgeLoop (List.range n).reverse (some n) from rfl]
    rw [ih (some n)]
    rw [if_neg (by omega)]
    congr 1
    apply List.map_congr_left
    intro i hi
    have hilt : i < n := List.mem_range.mp (List.mem_reverse.mp hi)
    by_cases hc : i + 1 < n
    · rw [if_pos hc, if_pos (by omega)]
    · have : i + 1 = n := by omega
      rw [if_neg hc, if_pos (by omega), this]

/-- Claim C7, counterexample: with two bundles, the FIRST bundle receives
the bridge jump (to the second bundle's head label) and the LAST bundle
receives none — the opposite of the claim's "every bundle except the first
... the first bundle gets no jump". -/
theorem bridgeJumps_first_not_exempt :
    bridgeJumps 2 = [(1, ⟨0, none⟩), (0, ⟨0, some (1, jmpSize)⟩)] ∧
    (0, (⟨0, some (1, jmpSize)⟩ : BundleAnnot)) ∈ bridgeJumps 2 ∧
    (1, (⟨0, none⟩ : BundleAnnot)) ∈ bridgeJumps 2 := by
  refine ⟨by decide, by decide, by decide⟩

/-- Claim C7 as amended: every bundle gets a label at offset 0 of its
first fragment, and every bundle EXCEPT THE LAST gets a 5-byte direct jump
appended to its tail targeting the head label of its successor; the last
bundle gets no jump. -/
theorem bridgeJumps_all_but_last (n i : ℕ) (ann : BundleAnnot)
    (h : (i, ann) ∈ bridgeJumps n) :
    ann.LabelAtHeadOffset = 0 ∧
    ann.Jump = (if i + 1 < n then some (i + 1, jmpSize) else none) ∧
    (∀ j, j < n →
      (j, (⟨0, if j + 1 < n then some (j + 1, jmpSize) else none⟩ :
        BundleAnnot)) ∈ bridgeJumps n) := by
  have hdesc := bridgeLoop_desc n none
  rw [bridgeJumps, hdesc] at h
  obtain ⟨i', hi', heq⟩ := List.mem_map.mp h
  have hilt : i' < n := List.mem_range.mp (List.mem_reverse.mp hi')
  rw [Prod.mk.injEq] at heq
  obtain ⟨rfl, hann⟩ := heq
  refine ⟨by rw [← hann], ?_, ?_⟩
  · rw [← hann]
    by_cases hc : i' + 1 < n
    · rw [if_pos hc, if_pos hc]
      rfl
    · rw [if_neg hc, if_neg hc]
      rfl
  · intro j hj
    rw [bridgeJumps, hdesc]
    apply List.mem_map.mpr
    refine ⟨j, List.mem_reverse.mpr (List.mem_range.mpr hj), ?_⟩
    by_cases hc : j + 1 < n
    · rw [if_pos hc, if_pos hc]
      rfl
    · rw [if_neg hc, if_neg hc]
      rfl

theorem bridgeJumps_all_but_last_witness :
    (⟨0, some (1, jmpSize)⟩ : BundleAnnot).LabelAtHeadOffset = 0 ∧
    (⟨0, some (1, jmpSize)⟩ : BundleAnnot).Jump =
      (if 0 + 1 < 2 then some (0 + 1, jmpSize) else none) :=
  ⟨(bridgeJumps_all_but_last 2 0 ⟨0, some (1, jmpSize)⟩ (by decide)).1,
   (bridgeJumps_all_but_last 2 0 ⟨0, some (1, jmpSize)⟩ (by decide)).2.1⟩

/-! ## Round-2 section rewrite (MCAssembler.cpp lines 1220-1311) -/

/-- Default `Result` for `List.getD` indexing. -/
def defaultResult : Result := ⟨0, none, none, none⟩

/-- The rewrite loop over the result map in ascending section offset
(lines 1227-1285), reduced to its observable arithmetic: for each entry,
`int64_t Fill = BundleSectionOffset - LastEnd` (a `uint64_t` difference
stored into `int64_t`), `assert(Fill >= 0)` aborting on overlap, a fill
fragment of `Fill` bytes of value `0xcc` inserted, and
`LastEnd += Fill + bundle size`.  Returns the inserted
`(fill length, fill value)` fragments. -/
def rewriteGo (bundleSize : ℕ → ℕ) :
    List (ℕ × Result) → ℕ → Option (List (ℕ × ℕ))
  | [], _ => some []
  | (off, res) :: rest, lastEnd =>
    if toInt64 (usub off lastEnd) < 0 then none
    else
      match rewriteGo bundleSize rest
          (uadd (uadd lastEnd (toInt64 (usub off lastEnd)).toNat)
            (bundleSize res.BundleIdx)) with
      | none => none
      | some fills =>
        some (((toInt64 (usub off lastEnd)).toNat, 0xcc) :: fills)

/-- Where `LastEnd` stands after a prefix of results is processed without
overlap: each entry leaves `LastEnd` at its section offset plus its
bundle's size. -/
def chainEnd (bundleSize : ℕ → ℕ) (lastEnd : ℕ) : List (ℕ × Result) → ℕ
  | [] => lastEnd
  | (off, res) :: rest =>
    chainEnd bundleSize (off + bundleSize res.BundleIdx) rest

/-- Round-2 emission happens strictly after the rewrite loop (the output
files are opened at lines 1304-1311, after the loop of lines 1227-1285):
an abort inside the loop kills the compile before any row is written. -/
def round2Rewrite (bundleSize : ℕ → ℕ) (rs : List (ℕ × Result)) :
    Option (List (ℕ × ℕ) × List (ℕ × Result)) :=
  match rewriteGo bundleSize rs 0 with
  | none => none
  | some fills => some (fills, rs)

/-- All offsets and sizes in the list are small enough that no `uint64_t`
wraparound can disturb the `Fill` computation. -/
def boundedResults (bundleSize : ℕ → ℕ) (rs : List (ℕ × Result)) : Prop :=
  ∀ p ∈ rs, p.1 < 2 ^ 62 ∧ bundleSize p.2.BundleIdx < 2 ^ 62

theorem toInt64_usub_neg (off lastEnd : ℕ) (hoff : off < 2 ^ 62)
    (hle : lastEnd < 2 ^ 63) :
    (toInt64 (usub off lastEnd) < 0 ↔ off < lastEnd) ∧
    (lastEnd ≤ off → (toInt64 (usub off lastEnd)).toNat = off - lastEnd) := by
  have h := usub_eq_wrap64 off lastEnd
  have h2 := toInt64_wrap64 ((off : ℤ) - lastEnd) (by omega) (by omega)
  rw [h, h2]
  omega

/-- Claim C8, success side: when the rewrite loop completes, the `k`-th
inserted fill fragment has length `section offset minus running last end`
(never negative) and value `0xcc`; in particular consecutive placements do
not overlap. -/
theorem rewriteGo_fills (bundleSize : ℕ → ℕ) :
    ∀ (rs : List (ℕ × Result)) (lastEnd : ℕ) (fills : List (ℕ × ℕ)),
      boundedResults bundleSize rs → lastEnd < 2 ^ 63 →
      rewriteGo bundleSize rs lastEnd = some fills →
      fills.length = rs.length ∧
      ∀ k, k < rs.length →
        chainEnd bundleSize lastEnd (rs.take k) ≤
          (rs.getD k (0, defaultResult)).1 ∧
        fills.getD k (0, 0) =
          ((rs.getD k (0, defaultResult)).1 -
            chainEnd bundleSize lastEnd (rs.take k), 0xcc) := by
  intro rs
  induction rs with
  | nil =>
    intro lastEnd fills hb hle h
    rw [rewriteGo] at h
    injection h with h
    subst h
    exact ⟨rfl, fun k hk => absurd hk (by simp)⟩
  | cons p t ih =>
    intro lastEnd fills hb hle h
    obtain ⟨off, res⟩ := p
    obtain ⟨hoff0, hsz0⟩ := hb (off, res) (List.mem_cons_self _ t)
    have hoff : off < 2 ^ 62 := hoff0
    have hsz : bundleSize res.BundleIdx < 2 ^ 62 := hsz0
    have hb' : boundedResults bundleSize t := fun q hq =>
      hb q (List.mem_cons_of_mem _ hq)
    rw [rewriteGo] at h
    split at h
    · cases h
    · rename_i hpos
      have hfit : lastEnd ≤ off := le_of_not_lt (fun hlt =>
        hpos ((toInt64_usub_neg off lastEnd hoff hle).1.mpr hlt))
      have hfill : (toInt64 (usub off lastEnd)).toNat = off - lastEnd :=
        (toInt64_usub_neg off lastEnd hoff hle).2 hfit
      have hlast : uadd (uadd lastEnd (toInt64 (usub off lastEnd)).toNat)
          (bundleSize res.BundleIdx) = off + bundleSize res.BundleIdx := by
        rw [hfill, uadd_small lastEnd (off - lastEnd) (by omega),
          uadd_small (lastEnd + (off - lastEnd)) (bundleSize res.BundleIdx)
            (by omega)]
        omega
      rw [hlast] at h
      split at h
      · cases h
      · rename_i fills' heq'
        injection h with h
        subst h
        obtain ⟨hlen, hall⟩ := ih (off + bundleSize res.BundleIdx) fills' hb'
          (by omega) heq'
        refine ⟨by simpa using hlen, ?_⟩
        intro k hk
        match k with
        | 0 =>
          refine ⟨by simpa [chainEnd] using hfit, ?_⟩
          simp only [List.take_zero, chainEnd, List.getD_cons_zero]
          rw [hfill]
        | k + 1 =>
          have h2 := hall k (by simpa using hk)
          rw [List.take_succ_cons, List.getD_cons_succ, List.getD_cons_succ]
          rw [show chainEnd bundleSize lastEnd ((off, res) :: t.take k) =
            chainEnd bundleSize (off + bundleSize res.BundleIdx) (t.take k)
            from rfl]
          exact h2

/-- Claim C8, abort side: a result whose section offset lies below the
running end of the previous placements (an overlap) makes the loop abort,
a duplicate key in the result map makes the insertion abort, and an abort
of the loop yields no output at all. -/
theorem rewriteGo_aborts (bundleSize : ℕ → ℕ) :
    (∀ (rs : List (ℕ × Result)) (lastEnd : ℕ),
      boundedResults bundleSize rs → lastEnd < 2 ^ 63 →
      (∃ k, k < rs.length ∧
        (rs.getD k (0, defaultResult)).1 <
          chainEnd bundleSize lastEnd (rs.take k) ∧
        (∀ j, j < k → chainEnd bundleSize lastEnd (rs.take j) ≤
          (rs.getD j (0, defaultResult)).1)) →
      rewriteGo bundleSize rs lastEnd = none) ∧
    (∀ (rs : List (ℕ × Result)) (k : ℕ) (v v' : Result),
      (k, v') ∈ rs → insertResult rs k v = none) ∧
    (∀ rs, rewriteGo bundleSize rs 0 = none →
      round2Rewrite bundleSize rs = none) := by
  refine ⟨?_, ?_, ?_⟩
  · intro rs
    induction rs with
    | nil =>
      intro lastEnd hb hle hex
      obtain ⟨k, hk, -⟩ := hex
      exact absurd hk (by simp)
    | cons p t ih =>
      intro lastEnd hb hle hex
      obtain ⟨k, hk, hviol, hmin⟩ := hex
      obtain ⟨off, res⟩ := p
      obtain ⟨hoff0, hsz0⟩ := hb (off, res) (List.mem_cons_self _ t)
      have hoff : off < 2 ^ 62 := hoff0
      have hsz : bundleSize res.BundleIdx < 2 ^ 62 := hsz0
      have hb' : boundedResults bundleSize t := fun q hq =>
        hb q (List.mem_cons_of_mem _ hq)
      rw [rewriteGo]
      match k with
      | 0 =>
        simp only [List.take_zero, chainEnd, List.getD_cons_zero] at hviol
        rw [if_pos ((toInt64_usub_neg off lastEnd hoff hle).1.mpr hviol)]
      | k + 1 =>
        have hfit : lastEnd ≤ off := by
          have h0 := hmin 0 (by omega)
          simp [chainEnd] at h0
          exact h0
        have hfill : (toInt64 (usub off lastEnd)).toNat = off - lastEnd :=
          (toInt64_usub_neg off lastEnd hoff hle).2 hfit
        rw [if_neg (fun hlt =>
          absurd ((toInt64_usub_neg off lastEnd hoff hle).1.mp hlt)
            (by omega))]
        have hlast : uadd (uadd lastEnd (toInt64 (usub off lastEnd)).toNat)
            (bundleSize res.BundleIdx) = off + bundleSize res.BundleIdx := by
          rw [hfill, uadd_small lastEnd (off - lastEnd) (by omega),
            uadd_small (lastEnd + (off - lastEnd))
              (bundleSize res.BundleIdx) (by omega)]
          omega
        rw [hlast]
        have hex' : ∃ k', k' < t.length ∧
            (t.getD k' (0, defaultResult)).1 <
              chainEnd bundleSize (off + bundleSize res.BundleIdx)
                (t.take k') ∧
            (∀ j, j < k' →
              chainEnd bundleSize (off + bundleSize res.BundleIdx)
                (t.take j) ≤ (t.getD j (0, defaultResult)).1) := by
          refine ⟨k, by simpa using hk, ?_, ?_⟩
          · simpa [List.take_succ_cons, List.getD_cons_succ, chainEnd]
              using hviol
          · intro j hj
            have h2 := hmin (j + 1) (by omega)
            simpa [List.take_succ_cons, List.getD_cons_succ, chainEnd]
              using h2
        rw [ih (off + bundleSize res.BundleIdx) hb' (by omega) hex']
  · intro rs k v v' hmem
    unfold insertResult
    rw [if_pos]
    apply List.any_eq_true.mpr
    exact ⟨(k, v'), hmem, by simp⟩
  · intro rs h
    unfold round2Rewrite
    rw [h]

/-- Claim C8: processing the result map in ascending section-offset order,
every inserted fill fragment has length `section_offset - last_end` and
value `0xcc`; a negative fill (overlapping placements) aborts the loop, a
duplicate section offset aborts the result-map insertion, and an aborted
loop emits no output. -/
theorem rewrite_fill_and_abort (bundleSize : ℕ → ℕ) :
    (∀ (rs : List (ℕ × Result)) (lastEnd : ℕ) (fills : List (ℕ × ℕ)),
      boundedResults bundleSize rs → lastEnd < 2 ^ 63 →
      rewriteGo bundleSize rs lastEnd = some fills →
      fills.length = rs.length ∧
      ∀ k, k < rs.length →
        chainEnd bundleSize lastEnd (rs.take k) ≤
          (rs.getD k (0, defaultResult)).1 ∧
        fills.getD k (0, 0) =
          ((rs.getD k (0, defaultResult)).1 -
            chainEnd bundleSize lastEnd (rs.take k), 0xcc)) ∧
    (∀ (rs : List (ℕ × Result)) (lastEnd : ℕ),
      boundedResults bundleSize rs → lastEnd < 2 ^ 63 →
      (∃ k, k < rs.length ∧
        (rs.getD k (0, defaultResult)).1 <
          chainEnd bundleSize lastEnd (rs.take k) ∧
        (∀ j, j < k → chainEnd bundleSize lastEnd (rs.take j) ≤
          (rs.getD j (0, defaultResult)).1)) →
      rewriteGo bundleSize rs lastEnd = none) ∧
    (∀ (rs : List (ℕ × Result)) (k : ℕ) (v v' : Result),
      (k, v') ∈ rs → insertResult rs k v = none) ∧
    (∀ rs, rewriteGo bundleSize rs 0 = none →
      round2Rewrite bundleSize rs = none) :=
  ⟨rewriteGo_fills bundleSize, (rewriteGo_aborts bundleSize).1,
   (rewriteGo_aborts bundleSize).2.1, (rewriteGo_aborts bundleSize).2.2⟩

theorem rewrite_fill_and_abort_witness :
    rewriteGo (fun _ => 16) [(32, ⟨0, none, none, none⟩),
      (64, ⟨1, none, none, none⟩)] 0 = some [(32, 0xcc), (16, 0xcc)] ∧
    ([(32, 0xcc), (16, 0xcc)] : List (ℕ × ℕ)).getD 0 (0, 0) =
      (32 - 0, 0xcc) ∧
    insertResult [(32, ⟨0, none, none, none⟩)] 32 ⟨1, none, none, none⟩ =
      none := by
  have heval : rewriteGo (fun _ => 16) [(32, ⟨0, none, none, none⟩),
      (64, ⟨1, none, none, none⟩)] 0 = some [(32, 0xcc), (16, 0xcc)] := by
    decide
  have h := (rewrite_fill_and_abort (fun _ => 16)).1
    [(32, ⟨0, none, none, none⟩), (64, ⟨1, none, none, none⟩)] 0
    [(32, 0xcc), (16, 0xcc)]
    (by intro p hp; fin_cases hp <;> exact ⟨by norm_num, by norm_num⟩)
    (by norm_num) heval
  have h0 := (h.2 0 (by norm_num)).2
  refine ⟨heval, h0, ?_⟩
  exact (rewrite_fill_and_abort (fun _ => 16)).2.2.1 _ 32 _
    ⟨0, none, none, none⟩ (List.mem_cons_self _ _)

/-! ## Mode dispatch (DBLCLIArgs.h, DBL.cpp, MCAssembler.cpp Finish and
fixupNeedsRelaxation) -/

/-- `enum DBLModeT { Baseline, Offsets, DBL }` (DBLCLIArgs.h lines 7-9). -/
inductive ModeT where
  | Baseline : ModeT
  | Offsets : ModeT
  | DBL : ModeT
deriving Repr, DecidableEq

/-- The handful of IR instructions the DBL pass emits into the new `main`
or the loader stub. -/
inductive InstrM where
  | callFn (callee : String) : InstrM
  | retVoid : InstrM
  | retZero : InstrM
deriving Repr, DecidableEq

/-- A module function: name plus body (`none` = declaration only, as
`getOrInsertFunction` creates). -/
structure FnM where
  Name : String
  Body : Option (List InstrM)
deriving Repr, DecidableEq

/-- `instrumentModule` (DBL.cpp lines 22-62): in `Baseline` mode the pass
returns immediately; otherwise the first function named `main` is renamed
`old_main`, a fresh `main` is created whose body calls `do_the_thing`,
then `old_main` with the original arguments, then returns 0, and
`do_the_thing` is inserted — with a body of a single `ret`
(`createRHStub`, lines 15-20) in `Offsets` mode, as a bare declaration in
`DBL` mode (the loader gets linked in). -/
def instrumentModule (mode : ModeT) (m : List FnM) : List FnM :=
  match mode with
  | .Baseline => m
  | _ =>
    match m.findIdx? (fun f => decide (f.Name = "main")) with
    | none => m
    | some i =>
      m.set i { m.getD i ⟨"", none⟩ with Name := "old_main" } ++
        [⟨"main", some [InstrM.callFn "do_the_thing",
          InstrM.callFn "old_main", InstrM.retZero]⟩,
         ⟨"do_the_thing",
          if mode = ModeT.Offsets then some [InstrM.retVoid] else none⟩]

/-- What `MCAssembler::Finish` (lines 1439-1497) runs in each mode. -/
structure FinishTrace where
  ConfigRead : Bool
  Round1 : Bool
  Round2 : Bool
deriving Repr, DecidableEq

/-- `MCAssembler::Finish`: round 1 (normal layout and emit) always runs;
only in `DBL` mode is the config read beforehand, the `TargetsToFind`
leftovers checked afterwards — `assert(TargetOffsets.empty())` aborting on
any unmatched target — and round 2 (`layout(LayoutDBL, true)` and the
re-emit) run. -/
def finishRun (mode : ModeT) (unmatchedAfterRound1 : List ℕ) :
    Option FinishTrace :=
  match mode with
  | .DBL =>
    if unmatchedAfterRound1.isEmpty then some ⟨true, true, true⟩ else none
  | _ => some ⟨false, true, false⟩

/-- `MCAssembler::fixupNeedsRelaxation` (lines 1499-1525): the leading
`Target.getSymA()` early-return is dead code (`Target` is
default-constructed, so `getSymA()` is null); in `Baseline` mode the host
backend's decision (`fixupNeedsRelaxationAdvanced` on the evaluated fixup)
is returned, in every other mode the function returns `true`. -/
def fixupNeedsRelaxation (mode : ModeT) (hostDecision : Bool) : Bool :=
  match mode with
  | .Baseline => hostDecision
  | _ => true

theorem mem_set_self {α : Type} (l : List α) (i : ℕ) (v : α)
    (h : i < l.length) : v ∈ l.set i v := by
  induction l generalizing i with
  | nil => simp at h
  | cons a t ih =>
    match i with
    | 0 => simp
    | i + 1 =>
      simp only [List.set_cons_succ, List.mem_cons]
      exact Or.inr (ih i (by simpa using h))

/-- Claim C9: in `baseline` the pass changes nothing and only the normal
single-round layout runs; in `offsets` the loader `do_the_thing` is an
empty stub (single `ret`) and round 2 is skipped; in `dbl` the config is
read, an unmatched target aborts after round 1, and otherwise round 2
runs; in the instrumented modes `main` is renamed `old_main` and the new
`main` calls the loader then `old_main`. -/
theorem mode_behaviour :
    (∀ m, instrumentModule ModeT.Baseline m = m) ∧
    (∀ u, finishRun ModeT.Baseline u = some ⟨false, true, false⟩) ∧
    (∀ m i, m.findIdx? (fun f => decide (f.Name = "main")) = some i →
      (FnM.mk "do_the_thing" (some [InstrM.retVoid]) ∈
        instrumentModule ModeT.Offsets m) ∧
      (FnM.mk "do_the_thing" none ∈ instrumentModule ModeT.DBL m) ∧
      (FnM.mk "main" (some [InstrM.callFn "do_the_thing",
        InstrM.callFn "old_main", InstrM.retZero]) ∈
          instrumentModule ModeT.Offsets m) ∧
      ({ m.getD i ⟨"", none⟩ with Name := "old_main" } ∈
        instrumentModule ModeT.Offsets m)) ∧
    (∀ u, finishRun ModeT.Offsets u = some ⟨false, true, false⟩) ∧
    (∀ u, u ≠ [] → finishRun ModeT.DBL u = none) ∧
    finishRun ModeT.DBL [] = some ⟨true, true, true⟩ := by
  refine ⟨fun m => rfl, fun u => rfl, ?_, fun u => rfl, ?_, rfl⟩
  · intro m i hfind
    have hlen : i < m.length := by
      have := List.findIdx?_eq_some_iff_findIdx_eq.mp hfind
      exact this.1
    refine ⟨?_, ?_, ?_, ?_⟩
    · rw [show instrumentModule ModeT.Offsets m =
        m.set i { m.getD i ⟨"", none⟩ with Name := "old_main" } ++
          [⟨"main", some [InstrM.callFn "do_the_thing",
            InstrM.callFn "old_main", InstrM.retZero]⟩,
           ⟨"do_the_thing", some [InstrM.retVoid]⟩] by
        simp [instrumentModule, hfind]]
      simp
    · rw [show instrumentModule ModeT.DBL m =
        m.set i { m.getD i ⟨"", none⟩ with Name := "old_main" } ++
          [⟨"main", some [InstrM.callFn "do_the_thing",
            InstrM.callFn "old_main", InstrM.retZero]⟩,
           ⟨"do_the_thing", none⟩] by
        simp [instrumentModule, hfind]]
      simp
    · rw [show instrumentModule ModeT.Offsets m =
        m.set i { m.getD i ⟨"", none⟩ with Name := "old_main" } ++
          [⟨"main", some [InstrM.callFn "do_the_thing",
            InstrM.callFn "old_main", InstrM.retZero]⟩,
           ⟨"do_the_thing", some [InstrM.retVoid]⟩] by
        simp [instrumentModule, hfind]]
      simp
    · rw [show instrumentModule ModeT.Offsets m =
        m.set i { m.getD i ⟨"", none⟩ with Name := "old_main" } ++
          [⟨"main", some [InstrM.callFn "do_the_thing",
            InstrM.callFn "old_main", InstrM.retZero]⟩,
           ⟨"do_the_thing", some [InstrM.retVoid]⟩] by
        simp [instrumentModule, hfind]]
      apply List.mem_append_left
      exact mem_set_self m i _ hlen
  · intro u hu
    unfold finishRun
    rw [if_neg (by simpa using hu)]

theorem mode_behaviour_witness :
    FnM.mk "do_the_thing" (some [InstrM.retVoid]) ∈
      instrumentModule ModeT.Offsets [⟨"main", some [InstrM.retZero]⟩] ∧
    finishRun ModeT.DBL [7] = none :=
  ⟨(mode_behaviour.2.2.1 [⟨"main", some [InstrM.retZero]⟩] 0 (by decide)).1,
   mode_behaviour.2.2.2.2.1 [7] (by decide)⟩

/-- Claim C10: `fixupNeedsRelaxation` returns `true` whenever the mode is
not `Baseline` — in `Offsets` mode just as in `DBL` mode — and consults
the host backend's decision only in `Baseline` mode. -/
theorem fixupNeedsRelaxation_forced :
    (∀ mode hostDecision, mode ≠ ModeT.Baseline →
      fixupNeedsRelaxation mode hostDecision = true) ∧
    (∀ hostDecision, fixupNeedsRelaxation ModeT.Offsets hostDecision = true) ∧
    (∀ hostDecision, fixupNeedsRelaxation ModeT.DBL hostDecision = true) ∧
    (∀ hostDecision,
      fixupNeedsRelaxation ModeT.Baseline hostDecision = hostDecision) := by
  refine ⟨?_, fun h => rfl, fun h => rfl, fun h => rfl⟩
  intro mode hostDecision hmode
  cases mode with
  | Baseline => exact absurd rfl hmode
  | Offsets => rfl
  | DBL => rfl

theorem fixupNeedsRelaxation_forced_witness :
    fixupNeedsRelaxation ModeT.Offsets false = true :=
  fixupNeedsRelaxation_forced.1 ModeT.Offsets false (by decide)

end DBLSolve
